import Mathlib

/-!
Verification of the self-update-example repository (src/binary/src/main.rs)
against its natural-language specification.

The source is a small binary whose `Update` subcommand is an unimplemented
stub; the version-requirement parser (`DownloadVersion::from_str`), the config
model (`Config`, `RepoId`) and the subcommand dispatch are embedded from the
source.  The release resolver, the self-update executor and the requirement
display function do not exist in the source and are modelled from the spec
where a claim needs them; each such definition carries a doc comment starting
with `Modelled from the spec:`.

Strings are modelled as Lean `String`s (lists of characters); semantic
versions and range expressions are given an executable parser and printer.
-/

/-! ### Decimal digits: printing and reading back -/

/-- Character for a single decimal digit `d < 10`. -/
def digitToChar (d : Nat) : Char := Char.ofNat (48 + d)

/-- Numeric value of a decimal digit character. -/
def charToDigit (c : Char) : Nat := c.toNat - 48

/-- Big-endian decimal character representation of a natural number. -/
def natChars (n : Nat) : List Char :=
  if n = 0 then ['0'] else ((Nat.digits 10 n).map digitToChar).reverse

/-- Read a big-endian list of decimal digit characters as a natural number. -/
def digitsToNat (cs : List Char) : Nat :=
  cs.foldl (fun a c => a * 10 + charToDigit c) 0

theorem toNat_ofNat_of_lt (n : Nat) (h : n < 55296) : (Char.ofNat n).toNat = n := by
  have hv : n.isValidChar := Or.inl h
  simp [Char.ofNat, hv, Char.ofNatAux, Char.toNat, UInt32.toNat]

theorem isDigit_iff (c : Char) : c.isDigit = true ↔ 48 ≤ c.toNat ∧ c.toNat ≤ 57 := by
  simp [Char.isDigit, UInt32.le_def, BitVec.le_def, Char.toNat, UInt32.toNat]

theorem charToDigit_digitToChar (d : Nat) (h : d < 10) :
    charToDigit (digitToChar d) = d := by
  have : (48 + d) < 55296 := by omega
  simp [charToDigit, digitToChar, toNat_ofNat_of_lt _ this]

theorem foldr_eq_ofDigits (ds : List Nat) :
    ds.foldr (fun d a => a * 10 + d) 0 = Nat.ofDigits 10 ds := by
  induction ds with
  | nil => simp [Nat.ofDigits]
  | cons d tl ih => simp [List.foldr, Nat.ofDigits, ih]; ring

theorem digitsToNat_natChars (n : Nat) : digitsToNat (natChars n) = n := by
  by_cases h : n = 0
  · subst h; decide
  · unfold natChars digitsToNat
    rw [if_neg h, List.foldl_reverse, List.foldr_map]
    have hlt : ∀ d ∈ Nat.digits 10 n, d < 10 :=
      fun d hd => Nat.digits_lt_base (by norm_num) hd
    have : ∀ ds : List Nat, (∀ d ∈ ds, d < 10) →
        ds.foldr (fun c a => a * 10 + charToDigit (digitToChar c)) 0 =
        ds.foldr (fun d a => a * 10 + d) 0 := by
      intro ds hds
      induction ds with
      | nil => rfl
      | cons d tl ih =>
        simp only [List.foldr]
        rw [ih (fun x hx => hds x (List.mem_cons_of_mem _ hx)),
          charToDigit_digitToChar d (hds d (List.mem_cons_self _ _))]
    rw [this _ hlt, foldr_eq_ofDigits, Nat.ofDigits_digits]

theorem natChars_ne_nil (n : Nat) : natChars n ≠ [] := by
  unfold natChars
  by_cases h : n = 0
  · simp [h]
  · rw [if_neg h]
    simp only [ne_eq, List.reverse_eq_nil_iff, List.map_eq_nil_iff]
    exact Nat.digits_ne_nil_iff_ne_zero.mpr h

theorem natChars_all_digit (n : Nat) : ∀ c ∈ natChars n, c.isDigit = true := by
  intro c hc
  unfold natChars at hc
  by_cases h : n = 0
  · rw [if_pos h] at hc
    simp at hc; subst hc; decide
  · rw [if_neg h, List.mem_reverse, List.mem_map] at hc
    obtain ⟨d, hd, rfl⟩ := hc
    have hlt : d < 10 := Nat.digits_lt_base (by norm_num) hd
    have hv : (48 + d) < 55296 := by omega
    rw [isDigit_iff, digitToChar, toNat_ofNat_of_lt _ hv]
    omega

/-! ### Greedy digit scanning -/

/-- Split a character list into its longest digit prefix and the remainder. -/
def takeDigits : List Char → List Char × List Char
  | [] => ([], [])
  | c :: cs =>
    if c.isDigit then
      let p := takeDigits cs
      (c :: p.1, p.2)
    else ([], c :: cs)

theorem takeDigits_append (ds rest : List Char)
    (hds : ∀ c ∈ ds, c.isDigit = true)
    (hrest : ∀ c, rest.head? = some c → c.isDigit = false) :
    takeDigits (ds ++ rest) = (ds, rest) := by
  induction ds with
  | nil =>
    simp only [List.nil_append]
    match rest, hrest with
    | [], _ => rfl
    | c :: cs, hrest =>
      have : c.isDigit = false := hrest c rfl
      simp [takeDigits, this]
  | cons d tl ih =>
    have hd : d.isDigit = true := hds d (List.mem_cons_self _ _)
    simp only [List.cons_append, takeDigits, hd, if_true]
    have := ih (fun c hc => hds c (List.mem_cons_of_mem _ hc))
    rw [show tl.append rest = tl ++ rest from rfl, this]

theorem takeDigits_sublen : ∀ cs : List Char, (takeDigits cs).2.length ≤ cs.length
  | [] => Nat.le_refl _
  | c :: cs => by
    simp only [takeDigits]
    split
    · exact Nat.le_trans (takeDigits_sublen cs) (Nat.le_succ _)
    · exact Nat.le_refl _

/-- Parse a nonempty run of decimal digits at the head of the input; returns
the value and the remaining characters. -/
def parseNatPart (cs : List Char) : Option (Nat × List Char) :=
  let p := takeDigits cs
  if p.1.isEmpty then none else some (digitsToNat p.1, p.2)

theorem parseNatPart_natChars (n : Nat) (rest : List Char)
    (hrest : ∀ c, rest.head? = some c → c.isDigit = false) :
    parseNatPart (natChars n ++ rest) = some (n, rest) := by
  unfold parseNatPart
  rw [takeDigits_append (natChars n) rest (natChars_all_digit n) hrest]
  have hne : natChars n ≠ [] := natChars_ne_nil n
  simp only [List.isEmpty_iff]
  rw [if_neg hne, digitsToNat_natChars]

/-! ### Version patterns (components of a range comparator) -/

/-- A version pattern appearing in one comparator of a range expression:
full `M.m.p`, partial `M` / `M.m`, or wildcard `M.*` / `M.m.*` components. -/
inductive VerPat where
  | m (major : Nat)
  | mm (major minor : Nat)
  | mmp (major minor patch : Nat)
  | mStar (major : Nat)
  | mmStar (major minor : Nat)
deriving DecidableEq, Repr

/-- Canonical text of a version pattern. -/
def printPat : VerPat → List Char
  | .m major => natChars major
  | .mm major minor => natChars major ++ '.' :: natChars minor
  | .mmp major minor patch =>
      natChars major ++ '.' :: natChars minor ++ '.' :: natChars patch
  | .mStar major => natChars major ++ ['.', '*']
  | .mmStar major minor => natChars major ++ '.' :: natChars minor ++ ['.', '*']

/-- Parse a version pattern at the head of the input. -/
def parsePat (cs : List Char) : Option (VerPat × List Char) :=
  match parseNatPart cs with
  | none => none
  | some (major, r1) =>
    if r1.head? = some '.' then
      let r2 := r1.tail
      if r2.head? = some '*' then some (.mStar major, r2.tail)
      else
        match parseNatPart r2 with
        | none => none
        | some (minor, r4) =>
          if r4.head? = some '.' then
            let r5 := r4.tail
            if r5.head? = some '*' then some (.mmStar major minor, r5.tail)
            else
              match parseNatPart r5 with
              | none => none
              | some (patch, r7) => some (.mmp major minor patch, r7)
          else some (.mm major minor, r4)
    else some (.m major, r1)

/-- The text following a printed pattern may not begin with a digit or a dot. -/
def patBoundary (rest : List Char) : Prop :=
  ∀ c, rest.head? = some c → (c.isDigit = false ∧ c ≠ '.')

theorem head_append_of_ne_nil (l r : List Char) (h : l ≠ []) :
    (l ++ r).head? = l.head? := by
  cases l with
  | nil => exact absurd rfl h
  | cons c cs => rfl

theorem natChars_head_digit (n : Nat) (c : Char)
    (h : (natChars n).head? = some c) : c.isDigit = true := by
  apply natChars_all_digit n
  cases hn : natChars n with
  | nil => rw [hn] at h; exact absurd h (by simp)
  | cons d tl =>
    rw [hn] at h
    simp only [List.head?, Option.some.injEq] at h
    rw [← h]
    exact List.mem_cons_self _ _

theorem digit_ne_dot {c : Char} (h : c.isDigit = true) : c ≠ '.' := by
  intro hc; subst hc; exact absurd h (by decide)

theorem digit_ne_star {c : Char} (h : c.isDigit = true) : c ≠ '*' := by
  intro hc; subst hc; exact absurd h (by decide)

theorem digit_ne_comma {c : Char} (h : c.isDigit = true) : c ≠ ',' := by
  intro hc; subst hc; exact absurd h (by decide)

theorem patBoundary_nil : patBoundary [] := by
  intro c h; exact absurd h (by simp)

theorem patBoundary_comma (tl : List Char) : patBoundary (',' :: tl) := by
  intro c h
  simp only [List.head?, Option.some.injEq] at h
  subst h; exact ⟨by decide, by decide⟩

theorem boundary_not_digit {rest : List Char} (hb : patBoundary rest) :
    ∀ c, rest.head? = some c → c.isDigit = false :=
  fun c h => (hb c h).1

theorem boundary_head_ne_dot {rest : List Char} (hb : patBoundary rest) :
    ¬ rest.head? = some '.' :=
  fun h => (hb '.' h).2 rfl

theorem dot_head_not_digit (tl : List Char) :
    ∀ c, ('.' :: tl).head? = some c → c.isDigit = false := by
  intro c h
  simp only [List.head?, Option.some.injEq] at h
  subst h; decide

theorem natChars_append_head_ne_star (n : Nat) (rest : List Char) :
    ¬ (natChars n ++ rest).head? = some '*' := by
  intro h
  rw [head_append_of_ne_nil _ _ (natChars_ne_nil n)] at h
  exact digit_ne_star (natChars_head_digit n _ h) rfl

theorem natChars_append_head_ne_dot (n : Nat) (rest : List Char) :
    ¬ (natChars n ++ rest).head? = some '.' := by
  intro h
  rw [head_append_of_ne_nil _ _ (natChars_ne_nil n)] at h
  exact digit_ne_dot (natChars_head_digit n _ h) rfl

theorem parsePat_printPat (pat : VerPat) (rest : List Char) (hb : patBoundary rest) :
    parsePat (printPat pat ++ rest) = some (pat, rest) := by
  cases pat with
  | m major =>
    have h1 : parseNatPart (natChars major ++ rest) = some (major, rest) :=
      parseNatPart_natChars major rest (boundary_not_digit hb)
    simp only [printPat, parsePat, h1, boundary_head_ne_dot hb, if_false]
  | mm major minor =>
    have e : natChars major ++ '.' :: natChars minor ++ rest =
        natChars major ++ ('.' :: (natChars minor ++ rest)) := by simp
    have h1 : parseNatPart (natChars major ++ ('.' :: (natChars minor ++ rest))) =
        some (major, '.' :: (natChars minor ++ rest)) :=
      parseNatPart_natChars major _ (dot_head_not_digit _)
    have h2 : parseNatPart (natChars minor ++ rest) = some (minor, rest) :=
      parseNatPart_natChars minor rest (boundary_not_digit hb)
    simp only [printPat, e, parsePat, h1, h2, List.head?_cons, Option.some.injEq,
      List.tail_cons, natChars_append_head_ne_star, if_true, if_false,
      boundary_head_ne_dot hb, reduceIte]
  | mmp major minor patch =>
    have e : natChars major ++ '.' :: natChars minor ++ '.' :: natChars patch ++ rest =
        natChars major ++ ('.' :: (natChars minor ++ ('.' :: (natChars patch ++ rest)))) := by
      simp
    have h1 : parseNatPart
        (natChars major ++ ('.' :: (natChars minor ++ ('.' :: (natChars patch ++ rest))))) =
        some (major, '.' :: (natChars minor ++ ('.' :: (natChars patch ++ rest)))) :=
      parseNatPart_natChars major _ (dot_head_not_digit _)
    have h2 : parseNatPart (natChars minor ++ ('.' :: (natChars patch ++ rest))) =
        some (minor, '.' :: (natChars patch ++ rest)) :=
      parseNatPart_natChars minor _ (dot_head_not_digit _)
    have h3 : parseNatPart (natChars patch ++ rest) = some (patch, rest) :=
      parseNatPart_natChars patch rest (boundary_not_digit hb)
    simp only [printPat, e, parsePat, h1, h2, h3, List.head?_cons, Option.some.injEq,
      List.tail_cons, natChars_append_head_ne_star, if_true, if_false, reduceIte]
  | mStar major =>
    have e : (natChars major ++ ['.', '*']) ++ rest =
        natChars major ++ ('.' :: '*' :: rest) := by simp
    have h1 : parseNatPart (natChars major ++ ('.' :: '*' :: rest)) =
        some (major, '.' :: '*' :: rest) :=
      parseNatPart_natChars major _ (dot_head_not_digit _)
    simp only [printPat, e, parsePat, h1, List.head?_cons, Option.some.injEq,
      List.tail_cons, reduceIte]
  | mmStar major minor =>
    have e : (natChars major ++ '.' :: natChars minor ++ ['.', '*']) ++ rest =
        natChars major ++ ('.' :: (natChars minor ++ ('.' :: '*' :: rest))) := by simp
    have h1 : parseNatPart (natChars major ++ ('.' :: (natChars minor ++ ('.' :: '*' :: rest)))) =
        some (major, '.' :: (natChars minor ++ ('.' :: '*' :: rest))) :=
      parseNatPart_natChars major _ (dot_head_not_digit _)
    have h2 : parseNatPart (natChars minor ++ ('.' :: '*' :: rest)) =
        some (minor, '.' :: '*' :: rest) :=
      parseNatPart_natChars minor _ (dot_head_not_digit _)
    simp only [printPat, e, parsePat, h1, h2, List.head?_cons, Option.some.injEq,
      List.tail_cons, natChars_append_head_ne_star, if_true, if_false, reduceIte]

/-! ### Range comparators and full range expressions -/

/-- Comparator operators of the range grammar
(`=`, `>`, `>=`, `<`, `<=`, `^`, `~`; a bare pattern means `^`). -/
inductive CompOp where
  | exact
  | greater
  | greaterEq
  | less
  | lessEq
  | tilde
  | caret
deriving DecidableEq, Repr

/-- Canonical text of a comparator operator. -/
def opChars : CompOp → List Char
  | .exact => ['=']
  | .greater => ['>']
  | .greaterEq => ['>', '=']
  | .less => ['<']
  | .lessEq => ['<', '=']
  | .tilde => ['~']
  | .caret => ['^']

/-- Parse the operator at the head of a comparator; a missing operator
defaults to caret semantics. -/
def parseOp (cs : List Char) : CompOp × List Char :=
  if cs.head? = some '=' then (.exact, cs.tail)
  else if cs.head? = some '>' then
    if cs.tail.head? = some '=' then (.greaterEq, cs.tail.tail) else (.greater, cs.tail)
  else if cs.head? = some '<' then
    if cs.tail.head? = some '=' then (.lessEq, cs.tail.tail) else (.less, cs.tail)
  else if cs.head? = some '~' then (.tilde, cs.tail)
  else if cs.head? = some '^' then (.caret, cs.tail)
  else (.caret, cs)

/-- One comparator of a range expression: an operator and a version pattern. -/
structure Comparator where
  op : CompOp
  pat : VerPat
deriving DecidableEq, Repr

/-- Canonical text of a comparator. -/
def printComparator (c : Comparator) : List Char :=
  opChars c.op ++ printPat c.pat

/-- Parse one comparator at the head of the input. -/
def parseComparator (cs : List Char) : Option (Comparator × List Char) :=
  let p := parseOp cs
  (parsePat p.2).map fun q => (⟨p.1, q.1⟩, q.2)

theorem parseOp_opChars (op : CompOp) (pat : VerPat) (rest : List Char) :
    parseOp (opChars op ++ printPat pat ++ rest) = (op, printPat pat ++ rest) := by
  have hd : ∀ c, (printPat pat ++ rest).head? = some c → c.isDigit = true ∨ c = '.' := by
    intro c h
    cases pat with
    | m major =>
      rw [show printPat (.m major) ++ rest = natChars major ++ rest by simp [printPat],
        head_append_of_ne_nil _ _ (natChars_ne_nil major)] at h
      exact Or.inl (natChars_head_digit major c h)
    | mm major minor =>
      rw [show printPat (.mm major minor) ++ rest =
          natChars major ++ ('.' :: natChars minor ++ rest) by simp [printPat],
        head_append_of_ne_nil _ _ (natChars_ne_nil major)] at h
      exact Or.inl (natChars_head_digit major c h)
    | mmp major minor patch =>
      rw [show printPat (.mmp major minor patch) ++ rest =
          natChars major ++ ('.' :: natChars minor ++ '.' :: natChars patch ++ rest)
          by simp [printPat],
        head_append_of_ne_nil _ _ (natChars_ne_nil major)] at h
      exact Or.inl (natChars_head_digit major c h)
    | mStar major =>
      rw [show printPat (.mStar major) ++ rest =
          natChars major ++ ('.' :: '*' :: rest) by simp [printPat],
        head_append_of_ne_nil _ _ (natChars_ne_nil major)] at h
      exact Or.inl (natChars_head_digit major c h)
    | mmStar major minor =>
      rw [show printPat (.mmStar major minor) ++ rest =
          natChars major ++ ('.' :: natChars minor ++ '.' :: '*' :: rest) by simp [printPat],
        head_append_of_ne_nil _ _ (natChars_ne_nil major)] at h
      exact Or.inl (natChars_head_digit major c h)
  have hne : ∀ x : Char, x = '=' ∨ x = '>' ∨ x = '<' ∨ x = '~' ∨ x = '^' →
      ¬ (printPat pat ++ rest).head? = some x := by
    intro x hx h
    rcases hd x h with hdig | hdot
    · rcases hx with rfl | rfl | rfl | rfl | rfl <;> exact absurd hdig (by decide)
    · subst hdot; rcases hx with h | h | h | h | h <;> exact absurd h (by decide)
  cases op with
  | exact =>
    simp only [opChars, List.cons_append, List.nil_append, parseOp, List.head?_cons,
      Option.some.injEq, List.tail_cons, reduceIte]
  | greater =>
    have := hne '=' (Or.inl rfl)
    simp only [opChars, List.cons_append, List.nil_append, parseOp, List.head?_cons,
      Option.some.injEq, List.tail_cons, reduceIte, this, if_false]
    rw [if_neg (by decide)]
  | greaterEq =>
    simp only [opChars, List.cons_append, List.nil_append, parseOp, List.head?_cons,
      Option.some.injEq, List.tail_cons, reduceIte]
    rw [if_neg (by decide)]
  | less =>
    have := hne '=' (Or.inl rfl)
    simp only [opChars, List.cons_append, List.nil_append, parseOp, List.head?_cons,
      Option.some.injEq, List.tail_cons, reduceIte, this, if_false]
    rw [if_neg (by decide), if_neg (by decide)]
  | lessEq =>
    simp only [opChars, List.cons_append, List.nil_append, parseOp, List.head?_cons,
      Option.some.injEq, List.tail_cons, reduceIte]
    rw [if_neg (by decide), if_neg (by decide)]
  | tilde =>
    have h1 := hne '=' (Or.inl rfl)
    simp only [opChars, List.cons_append, List.nil_append, parseOp, List.head?_cons,
      Option.some.injEq, List.tail_cons, reduceIte]
    rw [if_neg (by decide), if_neg (by decide), if_neg (by decide)]
  | caret =>
    simp only [opChars, List.cons_append, List.nil_append, parseOp, List.head?_cons,
      Option.some.injEq, List.tail_cons, reduceIte]
    rw [if_neg (by decide), if_neg (by decide), if_neg (by decide), if_neg (by decide)]

theorem parseComparator_printComparator (c : Comparator) (rest : List Char)
    (hb : patBoundary rest) :
    parseComparator (printComparator c ++ rest) = some (c, rest) := by
  obtain ⟨op, pat⟩ := c
  have e : printComparator ⟨op, pat⟩ ++ rest = opChars op ++ printPat pat ++ rest := by
    simp [printComparator]
  rw [e]
  unfold parseComparator
  rw [parseOp_opChars op pat rest]
  simp only [parsePat_printPat pat rest hb]
  rfl

/-- Canonical text of a nonempty comma-separated comparator list. -/
def printComps : Comparator → List Comparator → List Char
  | c, [] => printComparator c
  | c, c2 :: tl => printComparator c ++ ',' :: printComps c2 tl

/-- Fuelled parser for a nonempty comma-separated comparator list. -/
def parseCompsF : Nat → List Char → Option (Comparator × List Comparator)
  | 0, _ => none
  | fuel + 1, cs =>
    match parseComparator cs with
    | none => none
    | some (c, rest) =>
      if rest.isEmpty then some (c, [])
      else if rest.head? = some ',' then
        (parseCompsF fuel rest.tail).map fun p => (c, p.1 :: p.2)
      else none

theorem parseCompsF_printComps (t : List Comparator) (h : Comparator) (fuel : Nat)
    (hf : t.length < fuel) :
    parseCompsF fuel (printComps h t) = some (h, t) := by
  induction t generalizing h fuel with
  | nil =>
    cases fuel with
    | zero => exact absurd hf (by simp)
    | succ f =>
      have e : printComps h [] = printComparator h ++ [] := by simp [printComps]
      simp only [parseCompsF, e,
        parseComparator_printComparator h [] patBoundary_nil, List.isEmpty_nil, if_true]
  | cons c2 tl ih =>
    cases fuel with
    | zero => exact absurd hf (by simp)
    | succ f =>
      have e : printComps h (c2 :: tl) = printComparator h ++ (',' :: printComps c2 tl) := by
        simp [printComps]
      simp only [parseCompsF, e,
        parseComparator_printComparator h (',' :: printComps c2 tl) (patBoundary_comma _),
        List.isEmpty_cons, if_false, List.head?_cons, List.tail_cons, reduceIte]
      rw [ih c2 f (by simpa using Nat.lt_of_succ_lt_succ hf)]
      rfl

/-- A parsed semantic-version range expression: either the full wildcard `*`
or a nonempty comma-separated AND-composition of comparators.
Mirrors the shape of `semver::VersionReq` values used by the source. -/
inductive VersionReq where
  | star
  | comps (head : Comparator) (tail : List Comparator)
deriving DecidableEq, Repr

/-- Canonical text of a range expression. -/
def printVersionReq : VersionReq → String
  | .star => "*"
  | .comps h t => String.mk (printComps h t)

/-- Parse a range expression, as `semver::VersionReq::parse` does for the
grammar the spec describes (comparator operators, comma-separated
AND-composition, wildcard components). -/
def parseVersionReq (s : String) : Option VersionReq :=
  if s.data = ['*'] then some .star
  else (parseCompsF (s.data.length + 1) s.data).map fun p => .comps p.1 p.2

theorem natChars_len (n : Nat) : 1 ≤ (natChars n).length := by
  cases hn : natChars n with
  | nil => exact absurd hn (natChars_ne_nil n)
  | cons c tl => simp

theorem printComparator_len (c : Comparator) : 2 ≤ (printComparator c).length := by
  obtain ⟨op, pat⟩ := c
  have h1 : 1 ≤ (opChars op).length := by cases op <;> simp [opChars]
  have h2 : 1 ≤ (printPat pat).length := by
    cases pat with
    | m major => simpa [printPat] using natChars_len major
    | mm major minor =>
      simp only [printPat, List.length_append, List.length_cons]
      have := natChars_len major; omega
    | mmp major minor patch =>
      simp only [printPat, List.length_append, List.length_cons]
      have := natChars_len major; omega
    | mStar major =>
      simp only [printPat, List.length_append, List.length_cons]
      have := natChars_len major; omega
    | mmStar major minor =>
      simp only [printPat, List.length_append, List.length_cons]
      have := natChars_len major; omega
  calc 2 ≤ (opChars op).length + (printPat pat).length := by omega
    _ = (printComparator ⟨op, pat⟩).length := by simp [printComparator]

theorem printComps_len (h : Comparator) (t : List Comparator) :
    t.length + 2 ≤ (printComps h t).length := by
  induction t generalizing h with
  | nil => simpa [printComps] using printComparator_len h
  | cons c2 tl ih =>
    have h1 := printComparator_len h
    have h2 := ih c2
    simp only [printComps, List.length_append, List.length_cons, List.length]
    omega

theorem parseVersionReq_printVersionReq (r : VersionReq) :
    parseVersionReq (printVersionReq r) = some r := by
  cases r with
  | star => decide
  | comps h t =>
    have hlen := printComps_len h t
    have hne : printComps h t ≠ ['*'] := by
      intro he; rw [he] at hlen; simp at hlen
    have hdata : (String.mk (printComps h t)).data = printComps h t := rfl
    unfold printVersionReq parseVersionReq
    rw [hdata, if_neg hne,
      parseCompsF_printComps t h ((printComps h t).length + 1) (by omega)]
    rfl

/-! ### Case-insensitive comparison, as Rust `str::eq_ignore_ascii_case` -/

/-- ASCII lowercasing of a single character (Rust `u8::to_ascii_lowercase`). -/
def asciiLower (c : Char) : Char :=
  if 65 ≤ c.toNat ∧ c.toNat ≤ 90 then Char.ofNat (c.toNat + 32) else c

/-- Rust `str::eq_ignore_ascii_case`: equal length and pairwise
ASCII-case-insensitive equality. -/
def eqIgnoreAsciiCase (a b : String) : Bool :=
  a.data.length == b.data.length &&
    (List.zip a.data b.data).all fun p => asciiLower p.1 == asciiLower p.2

theorem zip_all_lower (x : List Char) : ∀ y : List Char,
    ((x.length == y.length) &&
      (List.zip x y).all fun p => asciiLower p.1 == asciiLower p.2) = true ↔
    x.map asciiLower = y.map asciiLower := by
  induction x with
  | nil => intro y; cases y <;> simp
  | cons cx tx ih =>
    intro y
    cases y with
    | nil => simp
    | cons cy ty =>
      simp only [List.length_cons, List.zip_cons_cons, List.all_cons, List.map_cons,
        List.cons.injEq, beq_iff_eq, Bool.and_eq_true, Nat.add_right_cancel_iff]
      constructor
      · rintro ⟨hl, hc, hall⟩
        refine ⟨hc, ?_⟩
        exact (ih ty).mp (by simp [hl, hall])
      · rintro ⟨hc, htl⟩
        have := (ih ty).mpr htl
        simp only [Bool.and_eq_true, beq_iff_eq] at this
        exact ⟨by simp [this.1], hc, this.2⟩

theorem eqIgnoreAsciiCase_iff (a b : String) :
    eqIgnoreAsciiCase a b = true ↔ a.data.map asciiLower = b.data.map asciiLower := by
  unfold eqIgnoreAsciiCase
  exact zip_all_lower a.data b.data

/-! ### The version-requirement parser (`DownloadVersion::from_str`) -/

/-- The version requirement to download: the latest release, or a pinned
semver range requirement. Mirrors `DownloadVersion` in the source. -/
inductive DownloadVersion where
  | Latest
  | Pinned (req : VersionReq)
deriving DecidableEq, Repr

/-- The `Default` impl in the source: serde and structopt use it when no
value is supplied; it returns `Latest`. -/
def DownloadVersion.defaultValue : DownloadVersion := .Latest

/-- A requirement-string parse failure, carrying the context message the
source attaches (which embeds the offending input). -/
structure ParseError where
  msg : String
deriving DecidableEq, Repr

/-- `DownloadVersion::from_str`: a string ASCII-case-insensitively equal to
`latest` yields `Latest`; otherwise the string is parsed as a semver
requirement, a failure being wrapped with a context naming the input. -/
def DownloadVersion.fromStr (s : String) : Except ParseError DownloadVersion :=
  if eqIgnoreAsciiCase s "latest" then .ok .Latest
  else
    match parseVersionReq s with
    | some req => .ok (.Pinned req)
    | none => .error ⟨"error parsing version " ++ s⟩

/-- Modelled from the spec: the display string of a requirement — `latest`
for `Latest`, the literal range expression for `Pinned`. The source has no
Display impl; §3 of the spec defines the rendering this way. -/
def DownloadVersion.display : DownloadVersion → String
  | .Latest => "latest"
  | .Pinned r => printVersionReq r

theorem printComps_head_op (h : Comparator) (t : List Comparator) :
    (printComps h t).head? = (opChars h.op).head? := by
  have hne : opChars h.op ≠ [] := by cases hop : h.op <;> simp [opChars]
  cases t with
  | nil =>
    show (printComparator h).head? = _
    unfold printComparator
    exact head_append_of_ne_nil _ _ hne
  | cons c2 tl =>
    show (printComparator h ++ ',' :: printComps c2 tl).head? = _
    rw [head_append_of_ne_nil]
    · unfold printComparator
      exact head_append_of_ne_nil _ _ hne
    · unfold printComparator
      intro hc
      exact hne (List.append_eq_nil.mp hc).1

theorem display_pinned_not_latest (r : VersionReq) :
    eqIgnoreAsciiCase (printVersionReq r) "latest" = false := by
  cases r with
  | star => decide
  | comps h t =>
    rw [Bool.eq_false_iff]
    intro htrue
    have hmap := (eqIgnoreAsciiCase_iff _ _).mp htrue
    have hdata : (printVersionReq (.comps h t)).data = printComps h t := rfl
    rw [hdata] at hmap
    have hheads : ((printComps h t).map asciiLower).head? =
        (("latest".data).map asciiLower).head? := by rw [hmap]
    rw [List.head?_map, List.head?_map, printComps_head_op] at hheads
    have hR : (("latest".data).head?).map asciiLower = some 'l' := by decide
    rw [hR] at hheads
    cases hop : h.op <;> rw [hop] at hheads <;> exact absurd hheads (by decide)

/-! ### Semantic versions and requirement matching -/

/-- A parsed semantic version `major.minor.patch`.
Modelled from the spec: the resolver parses tag remainders as semantic
versions; the spec uses plain three-component versions throughout. -/
structure Version where
  major : Nat
  minor : Nat
  patch : Nat
deriving DecidableEq, Repr

/-- Parse a full `major.minor.patch` version (the whole string must be
consumed). -/
def parseVersion (s : String) : Option Version :=
  match parsePat s.data with
  | some (.mmp major minor patch, []) => some ⟨major, minor, patch⟩
  | _ => none

/-- Strict semver precedence on three-component versions. -/
def verLt (a b : Version) : Prop :=
  a.major < b.major ∨ (a.major = b.major ∧
    (a.minor < b.minor ∨ (a.minor = b.minor ∧ a.patch < b.patch)))

instance (a b : Version) : Decidable (verLt a b) := by unfold verLt; infer_instance

/-- The least version with the components a pattern specifies (missing or
wildcard components read as zero). -/
def patFloor : VerPat → Version
  | .m major => ⟨major, 0, 0⟩
  | .mm major minor => ⟨major, minor, 0⟩
  | .mmp major minor patch => ⟨major, minor, patch⟩
  | .mStar major => ⟨major, 0, 0⟩
  | .mmStar major minor => ⟨major, minor, 0⟩

/-- Equality of a version with the components a pattern actually specifies. -/
def patMatchesEq : VerPat → Version → Bool
  | .m major, v => v.major == major
  | .mm major minor, v => v.major == major && v.minor == minor
  | .mmp major minor patch, v =>
      v.major == major && v.minor == minor && v.patch == patch
  | .mStar major, v => v.major == major
  | .mmStar major minor, v => v.major == major && v.minor == minor

/-- First version excluded by a caret (compatible-range) comparator. -/
def caretUpper : VerPat → Version
  | .m major => ⟨major + 1, 0, 0⟩
  | .mStar major => ⟨major + 1, 0, 0⟩
  | .mm major minor => if major = 0 then ⟨0, minor + 1, 0⟩ else ⟨major + 1, 0, 0⟩
  | .mmStar major minor => if major = 0 then ⟨0, minor + 1, 0⟩ else ⟨major + 1, 0, 0⟩
  | .mmp major minor patch =>
      if major = 0 then
        (if minor = 0 then ⟨0, 0, patch + 1⟩ else ⟨0, minor + 1, 0⟩)
      else ⟨major + 1, 0, 0⟩

/-- Components a tilde comparator pins exactly. -/
def tildeSame : VerPat → Version → Bool
  | .m major, v => v.major == major
  | .mStar major, v => v.major == major
  | .mm major minor, v => v.major == major && v.minor == minor
  | .mmStar major minor, v => v.major == major && v.minor == minor
  | .mmp major minor _, v => v.major == major && v.minor == minor

/-- Modelled from the spec: satisfaction of one comparator by a version,
following the standard range grammar semantics the spec names
(`=, >, >=, <, <=, ^, ~`, wildcard components). -/
def matchesComparator (c : Comparator) (v : Version) : Bool :=
  match c.op with
  | .exact => patMatchesEq c.pat v
  | .greater => decide (verLt (patFloor c.pat) v)
  | .greaterEq => decide (¬ verLt v (patFloor c.pat))
  | .less => decide (verLt v (patFloor c.pat))
  | .lessEq => decide (¬ verLt (patFloor c.pat) v)
  | .tilde => decide (¬ verLt v (patFloor c.pat)) && tildeSame c.pat v
  | .caret => decide (¬ verLt v (patFloor c.pat)) && decide (verLt v (caretUpper c.pat))

/-- Modelled from the spec: a version satisfies a range expression when it
satisfies every comma-separated comparator (AND-composition); the full
wildcard matches everything. -/
def matchesReq (r : VersionReq) (v : Version) : Bool :=
  match r with
  | .star => true
  | .comps h t => (h :: t).all fun c => matchesComparator c v

/-! ### Releases and the release resolver -/

/-- A downloadable artifact attached to a release. -/
structure Asset where
  file_name : String
  download_url : String
  size : Nat
deriving DecidableEq, Repr

/-- A release listed by the catalog: name, raw tag text, publish date
(timestamp), assets. -/
structure Release where
  name : String
  raw_tag : String
  date : Nat
  assets : List Asset
deriving DecidableEq, Repr

/-- Resolution failures. -/
inductive ResolveError where
  | NoMatchingRelease
  | AmbiguousMatch
  | NoMatchingAsset
deriving DecidableEq, Repr

/-- Rust `str::strip_prefix`: the remainder after an exact textual prefix
match, `none` when the prefix is absent. -/
def stripPrefixStr (pre tag : String) : Option String :=
  if pre.data.isPrefixOf tag.data then some (String.mk (tag.data.drop pre.data.length))
  else none

/-- The selection key of an eligible candidate: parsed version, then publish
date, compared lexicographically. -/
def candKey (p : Release × Version) : Version × Nat := (p.2, p.1.date)

/-- Strict lexicographic order on selection keys: greater version first,
later publish date breaking version ties. -/
def keyLt (a b : Version × Nat) : Prop :=
  a.1.major < b.1.major ∨ (a.1.major = b.1.major ∧
    (a.1.minor < b.1.minor ∨ (a.1.minor = b.1.minor ∧
      (a.1.patch < b.1.patch ∨ (a.1.patch = b.1.patch ∧ a.2 < b.2)))))

instance (a b : Version × Nat) : Decidable (keyLt a b) := by
  unfold keyLt; infer_instance

/-- One step of the maximum selection: a strictly greater key replaces the
best and clears the tie flag; an equal key sets the tie flag. -/
def selectStep (acc : (Release × Version) × Bool) (c : Release × Version) :
    (Release × Version) × Bool :=
  if keyLt (candKey acc.1) (candKey c) then (c, false)
  else if candKey acc.1 = candKey c then (acc.1, true)
  else acc

/-- Modelled from the spec: deterministic selection among candidates — the
greatest key wins; an exact tie (same version and same date) must fail with
`AmbiguousMatch` rather than pick arbitrarily. -/
def selectBest (h : Release × Version) (t : List (Release × Version)) :
    Except ResolveError (Release × Version) :=
  if (t.foldl selectStep (h, false)).2 then .error .AmbiguousMatch
  else .ok (t.foldl selectStep (h, false)).1

/-- The eligible candidates: each release whose raw tag starts with the
prefix and whose remainder parses as a semantic version, paired with that
version; other releases are silently excluded. -/
def eligibleList (pre : String) (releases : List Release) :
    List (Release × Version) :=
  releases.filterMap fun r =>
    ((stripPrefixStr pre r.raw_tag).bind parseVersion).map fun v => (r, v)

/-- Modelled from the spec (§4.2): the release resolver. Build the eligible
set (empty set fails with `NoMatchingRelease`); for `Latest` select among all
eligible candidates, for `Pinned` filter by the requirement first (empty
filtered set also `NoMatchingRelease`); selection takes the greatest version,
then the latest date, and fails with `AmbiguousMatch` on an exact tie. -/
def resolve (req : DownloadVersion) (pre : String) (releases : List Release) :
    Except ResolveError (Release × Version) :=
  match eligibleList pre releases with
  | [] => .error .NoMatchingRelease
  | e :: es =>
    match (match req with
           | .Latest => e :: es
           | .Pinned vr => (e :: es).filter fun p => matchesReq vr p.2) with
    | [] => .error .NoMatchingRelease
    | p :: ps => selectBest p ps

/-! ### Order facts about selection keys -/

theorem keyLt_trans {a b c : Version × Nat} (h1 : keyLt a b) (h2 : keyLt b c) :
    keyLt a c := by
  unfold keyLt at h1 h2 ⊢; omega

theorem keyLt_irrefl (a : Version × Nat) : ¬ keyLt a a := by
  unfold keyLt; omega

theorem keyLt_ne {a b : Version × Nat} (h : keyLt a b) : a ≠ b := by
  intro he; rw [he] at h; exact keyLt_irrefl b h

theorem keyLt_total (a b : Version × Nat) : keyLt a b ∨ keyLt b a ∨ a = b := by
  by_cases h1 : keyLt a b
  · exact Or.inl h1
  by_cases h2 : keyLt b a
  · exact Or.inr (Or.inl h2)
  refine Or.inr (Or.inr ?_)
  obtain ⟨⟨am, an, ap⟩, ad⟩ := a
  obtain ⟨⟨bm, bn, bp⟩, bd⟩ := b
  unfold keyLt at h1 h2
  dsimp only at h1 h2
  simp only [Prod.mk.injEq, Version.mk.injEq]
  omega

/-! ### The selection fold: invariant and correctness -/

theorem selectStep_lt {b0 c : Release × Version} (d0 : Bool)
    (h : keyLt (candKey b0) (candKey c)) : selectStep (b0, d0) c = (c, false) := by
  simp [selectStep, h]

theorem selectStep_dup {b0 c : Release × Version} (d0 : Bool)
    (h1 : ¬ keyLt (candKey b0) (candKey c)) (h2 : candKey b0 = candKey c) :
    selectStep (b0, d0) c = (b0, true) := by
  simp only [selectStep, h1, if_false]
  rw [if_pos h2]

theorem selectStep_keep {b0 c : Release × Version} (d0 : Bool)
    (h1 : ¬ keyLt (candKey b0) (candKey c)) (h2 : ¬ candKey b0 = candKey c) :
    selectStep (b0, d0) c = (b0, d0) := by
  simp only [selectStep, h1, if_false]
  rw [if_neg h2]

theorem countP_key_cons (x : Release × Version) (l : List (Release × Version))
    (b : Release × Version) :
    ((x :: l).countP fun p => decide (candKey p = candKey b)) =
    (l.countP fun p => decide (candKey p = candKey b)) +
      (if candKey x = candKey b then 1 else 0) := by
  rw [List.countP_cons]
  by_cases h : candKey x = candKey b
  · simp [h]
  · simp [h]

theorem selectFold_spec (l : List (Release × Version)) :
    ∀ (b0 : Release × Version) (d0 : Bool) (b : Release × Version) (d : Bool),
    l.foldl selectStep (b0, d0) = (b, d) →
    b ∈ b0 :: l ∧
    (∀ p ∈ b0 :: l, ¬ keyLt (candKey b) (candKey p)) ∧
    (d = true ↔ ((d0 = true ∧ b = b0) ∨
      2 ≤ (b0 :: l).countP fun p => decide (candKey p = candKey b))) := by
  induction l with
  | nil =>
    intro b0 d0 b d h
    simp only [List.foldl_nil] at h
    have h1 : b0 = b := congrArg Prod.fst h
    have h2 : d0 = d := congrArg Prod.snd h
    subst h1; subst h2
    refine ⟨List.mem_cons_self _ _, ?_, ?_⟩
    · intro p hp
      have : p = b0 := by simpa using hp
      subst this
      exact keyLt_irrefl _
    · simp [List.countP_cons]
  | cons c l' ih =>
    intro b0 d0 b d h
    simp only [List.foldl_cons] at h
    by_cases hlt : keyLt (candKey b0) (candKey c)
    · rw [selectStep_lt d0 hlt] at h
      obtain ⟨hmem, hmax, hdup⟩ := ih c false b d h
      have hbc : ¬ keyLt (candKey b) (candKey c) := hmax c (List.mem_cons_self _ _)
      have hb0b : keyLt (candKey b0) (candKey b) := by
        rcases keyLt_total (candKey c) (candKey b) with h1 | h2 | h3
        · exact keyLt_trans hlt h1
        · exact absurd h2 hbc
        · rw [h3] at hlt; exact hlt
      have hkey_ne : ¬ candKey b0 = candKey b := by
        intro he; rw [he] at hb0b; exact keyLt_irrefl _ hb0b
      have hval_ne : ¬ b = b0 := by
        intro he; exact hkey_ne (by rw [he])
      refine ⟨List.mem_cons_of_mem _ hmem, ?_, ?_⟩
      · intro p hp
        rcases List.mem_cons.mp hp with rfl | hp'
        · intro hk
          exact hmax c (List.mem_cons_self _ _) (keyLt_trans hk hlt)
        · exact hmax p hp'
      · rw [hdup]
        have hcnt : (b0 :: c :: l').countP (fun p => decide (candKey p = candKey b)) =
            (c :: l').countP (fun p => decide (candKey p = candKey b)) := by
          rw [List.countP_cons]
          simp [hkey_ne]
        rw [hcnt]
        simp [hval_ne]
    · by_cases heq : candKey b0 = candKey c
      · rw [selectStep_dup d0 hlt heq] at h
        obtain ⟨hmem, hmax, hdup⟩ := ih b0 true b d h
        refine ⟨?_, ?_, ?_⟩
        · rcases List.mem_cons.mp hmem with rfl | hl'
          · exact List.mem_cons_self _ _
          · exact List.mem_cons_of_mem _ (List.mem_cons_of_mem _ hl')
        · intro p hp
          rcases List.mem_cons.mp hp with rfl | hp'
          · exact hmax p (List.mem_cons_self _ _)
          rcases List.mem_cons.mp hp' with rfl | hp''
          · rw [← heq]
            exact hmax b0 (List.mem_cons_self _ _)
          · exact hmax p (List.mem_cons_of_mem _ hp'')
        · rw [hdup, countP_key_cons, countP_key_cons, countP_key_cons]
          by_cases hb : candKey b0 = candKey b
          · have hc : candKey c = candKey b := heq.symm.trans hb
            rw [if_pos hb, if_pos hc]
            constructor
            · rintro (⟨_, rfl⟩ | h2)
              · right; omega
              · right; omega
            · rintro (⟨hd0, hbb⟩ | h2)
              · exact Or.inl ⟨rfl, hbb⟩
              · by_cases hbb : b = b0
                · exact Or.inl ⟨rfl, hbb⟩
                · right
                  rcases List.mem_cons.mp hmem with h' | h'
                  · exact absurd h' hbb
                  · have hpos : 0 < l'.countP (fun p => decide (candKey p = candKey b)) :=
                      List.countP_pos_iff.mpr ⟨b, h', by simp⟩
                    omega
          · have hc : ¬ candKey c = candKey b := fun he => hb (heq.trans he)
            have hbb : ¬ b = b0 := fun he => hb (by rw [he])
            rw [if_neg hb, if_neg hc]
            simp only [hbb, and_false, false_or, true_and]
      · rw [selectStep_keep d0 hlt heq] at h
        obtain ⟨hmem, hmax, hdup⟩ := ih b0 d0 b d h
        have hclt : keyLt (candKey c) (candKey b0) := by
          rcases keyLt_total (candKey b0) (candKey c) with h1 | h1 | h1
          · exact absurd h1 hlt
          · exact h1
          · exact absurd h1 heq
        have hble : ¬ keyLt (candKey b) (candKey b0) :=
          hmax b0 (List.mem_cons_self _ _)
        have hcne : ¬ candKey c = candKey b := by
          rcases keyLt_total (candKey b0) (candKey b) with h1 | h1 | h1
          · exact keyLt_ne (keyLt_trans hclt h1)
          · exact absurd h1 hble
          · rw [← h1]
            exact keyLt_ne hclt
        refine ⟨?_, ?_, ?_⟩
        · rcases List.mem_cons.mp hmem with rfl | hl'
          · exact List.mem_cons_self _ _
          · exact List.mem_cons_of_mem _ (List.mem_cons_of_mem _ hl')
        · intro p hp
          rcases List.mem_cons.mp hp with rfl | hp'
          · exact hmax p (List.mem_cons_self _ _)
          rcases List.mem_cons.mp hp' with rfl | hp''
          · exact fun hk => hble (keyLt_trans hk hclt)
          · exact hmax p (List.mem_cons_of_mem _ hp'')
        · rw [hdup, countP_key_cons, countP_key_cons, countP_key_cons, if_neg hcne]
          constructor
          · rintro (h1 | h1)
            · exact Or.inl h1
            · right; omega
          · rintro (h1 | h1)
            · exact Or.inl h1
            · right; omega

/-! ### Config and CLI layer -/

/-- The repository to download updates from (`RepoId` in the source). -/
structure RepoId where
  owner : String
  name : String
deriving DecidableEq, Repr

/-- Configuration read from the downstream repository (`Config` in the
source): repository identity, tag text before version numbers (the
`prefix` field, called `pre` here), and the version requirement. -/
structure Config where
  repo : RepoId
  pre : String
  version : DownloadVersion
deriving DecidableEq, Repr

/-- The `repo` table of the TOML surface, fields possibly absent. -/
structure RawRepo where
  owner : Option String
  name : Option String
deriving DecidableEq, Repr

/-- The parsed TOML surface of the config file, fields possibly absent. -/
structure RawConfig where
  repo : Option RawRepo
  pre : Option String
  version : Option String
deriving DecidableEq, Repr

/-- Failures of `Config::read_path`: file read failure (with the path in
context), TOML syntax failure, a missing required field, or a bad version
string. -/
inductive ConfigError where
  | readError (path : String)
  | tomlError
  | missingField (field : String)
  | badVersion (e : ParseError)
deriving DecidableEq, Repr

/-- Config-field deserialization of `version` via `DisplayFromStr`: serde
obtains a string and delegates to `DownloadVersion::from_str`. -/
def configVersionFieldParse (s : String) : Except ParseError DownloadVersion :=
  DownloadVersion.fromStr s

/-- structopt parsing of the CLI `--version` argument: delegates to the
`FromStr` impl, `DownloadVersion::from_str`. -/
def cliVersionArgParse (s : String) : Except ParseError DownloadVersion :=
  DownloadVersion.fromStr s

/-- serde deserialization of `Config`: `repo.owner`, `repo.name` and the
tag-text field are required; `version` carries `#[serde(default)]`, so an
absent value is `DownloadVersion::default()` and a present string goes
through the `DisplayFromStr` path. -/
def deserializeConfig (raw : RawConfig) : Except ConfigError Config :=
  match raw.repo with
  | none => .error (.missingField ("repo"))
  | some rr =>
    match rr.owner with
    | none => .error (.missingField ("owner"))
    | some o =>
      match rr.name with
      | none => .error (.missingField ("name"))
      | some n =>
        match raw.pre with
        | none => .error (.missingField ("prefix"))
        | some p =>
          match raw.version with
          | none => .ok ⟨⟨o, n⟩, p, DownloadVersion.defaultValue⟩
          | some vs =>
            match configVersionFieldParse vs with
            | .ok v => .ok ⟨⟨o, n⟩, p, v⟩
            | .error e => .error (.badVersion e)

/-- `Config::read_path`: read the file (failure is an error carrying the
path), then TOML-deserialize (failure is an error); never a default config.
The filesystem and the TOML syntax layer are external collaborators, modelled
as the optional file contents and a text-to-surface function. -/
def readPath (path : String) (contents : Option String)
    (toml : String → Option RawConfig) : Except ConfigError Config :=
  match contents with
  | none => .error (.readError path)
  | some text =>
    match toml text with
    | none => .error .tomlError
    | some raw => deserializeConfig raw

/-- Modelled from the spec (§6): a CLI-supplied override requirement, when
present, takes precedence over the config value for a single invocation. -/
def effectiveRequirement (config : Config) (cliOverride : Option DownloadVersion) :
    DownloadVersion :=
  cliOverride.getD config.version

/-! ### Subcommand dispatch -/

/-- The two subcommands of the binary. -/
inductive Subcommand where
  | ListReleases
  | Update (version : Option DownloadVersion)
deriving DecidableEq, Repr

/-- A remote catalog failure. -/
structure CatalogError where
  msg : String
deriving DecidableEq, Repr

/-- Result of running a subcommand: normal return, propagated error, or a
panic (`unimplemented!()`). -/
inductive ExecOutcome where
  | ok
  | failed (msg : String)
  | panicked
deriving DecidableEq, Repr

/-- `Subcommand::exec`: `ListReleases` fetches the release list from the
catalog (the fetch is an external collaborator passed as a function) and
prints it; the `Update` arm is `unimplemented!()` and panics. -/
def Subcommand.exec (s : Subcommand) (config : Config)
    (fetch : RepoId → Except CatalogError (List Release)) : ExecOutcome :=
  match s with
  | .ListReleases =>
    match fetch config.repo with
    | .ok _ => .ok
    | .error e => .failed e.msg
  | .Update _ => .panicked

/-! ### The self-update executor (modelled from the spec) -/

/-- Non-terminal phases of the executor state machine. -/
inductive Phase where
  | Downloading
  | Verifying
  | Staging
  | Swapping
deriving DecidableEq, Repr

/-- The on-disk state the executor touches: the bytes at the executable
path and the temporary staged artifact. -/
structure Disk where
  execBytes : Option (List Nat)
  temp : Option (List Nat)
deriving DecidableEq, Repr

/-- Executor failures (the spec folds a staging failure into the generic
`Failed(reason)` terminal). -/
inductive UpdateError where
  | DownloadError
  | VerificationError
  | StagingError
  | SwapError
deriving DecidableEq, Repr

/-- Modelled from the spec (§4.3): the Self-Update Executor. `old` is the
running executable, `new_` the downloaded artifact, `reportedSize` the
catalog-reported size, and `interrupt` injects a failure or interruption at
a phase. Downloading streams to a temp file (failure cleans it up);
Verifying checks the size (mismatch deletes the temp artifact, executable
untouched); Staging aborts without mutating the live binary; Swapping is a
single atomic rename (failure retains the staged artifact). Returns the
trace of disk states (last entry is the final state) and the outcome. -/
def runUpdate (old new_ : List Nat) (reportedSize : Nat)
    (interrupt : Option Phase) : List Disk × Option UpdateError :=
  let d0 : Disk := ⟨some old, none⟩
  if interrupt = some .Downloading then
    ([d0, ⟨some old, none⟩], some .DownloadError)
  else
    let d1 : Disk := ⟨some old, some new_⟩
    if interrupt = some .Verifying ∨ new_.length ≠ reportedSize then
      ([d0, d1, ⟨some old, none⟩], some .VerificationError)
    else if interrupt = some .Staging then
      ([d0, d1, ⟨some old, some new_⟩], some .StagingError)
    else if interrupt = some .Swapping then
      ([d0, d1, ⟨some old, some new_⟩], some .SwapError)
    else
      ([d0, d1, ⟨some new_, none⟩], none)

/-! ### Claim theorems -/

/-- C4: for every config and every optional version argument (and any
catalog), executing the `Update` subcommand panics — the `Update` arm of
`Subcommand::exec` is an unimplemented stub — instead of performing the
download/verify/swap contract. -/
theorem update_subcommand_panics (config : Config) (v : Option DownloadVersion)
    (fetch : RepoId → Except CatalogError (List Release)) :
    Subcommand.exec (.Update v) config fetch = .panicked := rfl

/-- C5: every string that is ASCII-case-insensitively equal to `latest`
(its characters, ASCII-lowercased, spell `latest`) parses to the `Latest`
requirement. -/
theorem fromStr_latest_case_insensitive (s : String)
    (h : s.data.map asciiLower = ("latest").data) :
    DownloadVersion.fromStr s = .ok .Latest := by
  have heq : eqIgnoreAsciiCase s ("latest") = true :=
    (eqIgnoreAsciiCase_iff _ _).mpr (by rw [h]; decide)
  unfold DownloadVersion.fromStr
  rw [if_pos heq]

theorem fromStr_latest_case_insensitive_witness :
    ("LaTeSt").data.map asciiLower = ("latest").data ∧
    DownloadVersion.fromStr ("LaTeSt") = .ok .Latest :=
  ⟨by decide, fromStr_latest_case_insensitive ("LaTeSt") (by decide)⟩

/-- C6: every string that is not a case variant of `latest` is parsed as a
semver range expression: a successful parse yields `Pinned` (never a silent
coercion to `Latest`), and a failed parse yields an error whose message
carries the offending input. -/
theorem fromStr_non_latest_parses_range (s : String)
    (h : ¬ s.data.map asciiLower = ("latest").data) :
    DownloadVersion.fromStr s ≠ .ok .Latest ∧
    (∀ r, parseVersionReq s = some r →
      DownloadVersion.fromStr s = .ok (.Pinned r)) ∧
    (parseVersionReq s = none →
      ∃ e, DownloadVersion.fromStr s = .error e ∧
        ∃ a b, e.msg = a ++ s ++ b) := by
  have heq : ¬ eqIgnoreAsciiCase s ("latest") = true := by
    intro htrue
    exact h (((eqIgnoreAsciiCase_iff _ _).mp htrue).trans (by decide))
  unfold DownloadVersion.fromStr
  rw [if_neg heq]
  refine ⟨?_, ?_, ?_⟩
  · cases hp : parseVersionReq s with
    | none => simp
    | some r => simp
  · intro r hr
    rw [hr]
  · intro hn
    rw [hn]
    refine ⟨⟨("error parsing version ") ++ s⟩, rfl, ("error parsing version "), (""), ?_⟩
    simp

theorem fromStr_non_latest_parses_range_witness :
    DownloadVersion.fromStr ("not-a-version") ≠ .ok .Latest :=
  (fromStr_non_latest_parses_range ("not-a-version") (by decide)).1

/-- C7: the config-field deserializer (`DisplayFromStr`) and the CLI
argument decoder (structopt via `FromStr`) invoke the same parse-from-string
function, so the two entry points agree on every input. -/
theorem config_and_cli_share_parse_fn :
    ∀ s : String, configVersionFieldParse s = cliVersionArgParse s :=
  fun _ => rfl

/-- C8: an absent config `version` field deserializes to `Latest` (the
`Default` impl), and with no CLI override the requirement used is `Latest`. -/
theorem absent_version_defaults_latest (o n p : String) :
    deserializeConfig ⟨some ⟨some o, some n⟩, some p, none⟩ =
      .ok ⟨⟨o, n⟩, p, .Latest⟩ ∧
    DownloadVersion.defaultValue = .Latest ∧
    effectiveRequirement ⟨⟨o, n⟩, p, .Latest⟩ none = .Latest :=
  ⟨rfl, rfl, rfl⟩

/-- C9: rendering a requirement (`latest` for `Latest`, the literal range
expression for `Pinned`) and parsing the rendered string returns the
original requirement, for every requirement value. -/
theorem requirement_display_roundtrip (v : DownloadVersion) :
    DownloadVersion.fromStr (DownloadVersion.display v) = .ok v := by
  cases v with
  | Latest =>
    show DownloadVersion.fromStr ("latest") = .ok .Latest
    rfl
  | Pinned r =>
    show DownloadVersion.fromStr (printVersionReq r) = .ok (.Pinned r)
    unfold DownloadVersion.fromStr
    have hni : ¬ eqIgnoreAsciiCase (printVersionReq r) ("latest") = true := by
      simp [display_pinned_not_latest r]
    rw [if_neg hni, parseVersionReq_printVersionReq r]

/-- C10: reading the config fails with an error — never a default config —
when the file cannot be read, when the TOML does not parse, or when a
required field (`repo.owner`, `repo.name`, the prefix) is missing; only the
`version` field may be absent. -/
theorem read_path_requires_fields (path : String) (contents : Option String)
    (toml : String → Option RawConfig) :
    (contents = none → readPath path contents toml = .error (.readError path)) ∧
    (∀ text, contents = some text → toml text = none →
      readPath path contents toml = .error .tomlError) ∧
    (∀ text raw, contents = some text → toml text = some raw →
      readPath path contents toml = deserializeConfig raw) ∧
    (∀ p v, deserializeConfig ⟨none, p, v⟩ = .error (.missingField ("repo"))) ∧
    (∀ nm p v, deserializeConfig ⟨some ⟨none, nm⟩, p, v⟩ =
      .error (.missingField ("owner"))) ∧
    (∀ o p v, deserializeConfig ⟨some ⟨some o, none⟩, p, v⟩ =
      .error (.missingField ("name"))) ∧
    (∀ o n v, deserializeConfig ⟨some ⟨some o, some n⟩, none, v⟩ =
      .error (.missingField ("prefix"))) ∧
    (∀ o n p, deserializeConfig ⟨some ⟨some o, some n⟩, some p, none⟩ =
      .ok ⟨⟨o, n⟩, p, .Latest⟩) := by
  refine ⟨?_, ?_, ?_, fun p v => rfl, fun nm p v => rfl, fun o p v => rfl,
    fun o n v => rfl, fun o n p => rfl⟩
  · intro h; rw [h]; rfl
  · intro text hc ht
    rw [hc]
    show (match toml text with
          | none => Except.error ConfigError.tomlError
          | some raw => deserializeConfig raw) = Except.error ConfigError.tomlError
    rw [ht]
  · intro text raw hc ht
    rw [hc]
    show (match toml text with
          | none => Except.error ConfigError.tomlError
          | some raw => deserializeConfig raw) = deserializeConfig raw
    rw [ht]

theorem read_path_requires_fields_witness :
    readPath ("Config.toml") none (fun _ => none) =
      .error (.readError ("Config.toml")) :=
  (read_path_requires_fields ("Config.toml") none (fun _ => none)).1 rfl

/-- C1: for the `Latest` requirement, with a nonempty eligible set, either
resolution succeeds with the unique candidate maximal in the
(version, publish date) lexicographic order — greatest parsed version,
later date breaking version ties — or, when the maximal key (same version
and same date) is attained at least twice, resolution fails with
`AmbiguousMatch` rather than picking arbitrarily. -/
theorem resolve_latest_selects_unique_max (pre : String) (releases : List Release)
    (hne : eligibleList pre releases ≠ []) :
    (∃ best, resolve .Latest pre releases = .ok best ∧
      best ∈ eligibleList pre releases ∧
      (∀ p ∈ eligibleList pre releases, ¬ keyLt (candKey best) (candKey p)) ∧
      (eligibleList pre releases).countP
        (fun p => decide (candKey p = candKey best)) = 1) ∨
    (resolve .Latest pre releases = .error .AmbiguousMatch ∧
      ∃ best, best ∈ eligibleList pre releases ∧
        (∀ p ∈ eligibleList pre releases, ¬ keyLt (candKey best) (candKey p)) ∧
        2 ≤ (eligibleList pre releases).countP
          (fun p => decide (candKey p = candKey best))) := by
  cases heq : eligibleList pre releases with
  | nil => exact absurd heq hne
  | cons e es =>
    have hres : resolve .Latest pre releases = selectBest e es := by
      unfold resolve
      rw [heq]
    have hfold : es.foldl selectStep (e, false) =
        ((es.foldl selectStep (e, false)).1, (es.foldl selectStep (e, false)).2) := rfl
    obtain ⟨hmem, hmax, hdup⟩ := selectFold_spec es e false _ _ hfold
    by_cases hd : (es.foldl selectStep (e, false)).2 = true
    · right
      constructor
      · rw [hres]
        unfold selectBest
        rw [if_pos hd]
      · refine ⟨(es.foldl selectStep (e, false)).1, ?_, ?_, ?_⟩
        · exact hmem
        · intro p hp; exact hmax p hp
        · rcases hdup.mp hd with ⟨hfalse, _⟩ | hcnt
          · exact absurd hfalse (by simp)
          · exact hcnt
    · left
      refine ⟨(es.foldl selectStep (e, false)).1, ?_, ?_, ?_, ?_⟩
      · rw [hres]
        unfold selectBest
        rw [if_neg hd]
      · exact hmem
      · intro p hp; exact hmax p hp
      · have h1 : 0 < (e :: es).countP
            (fun p => decide (candKey p = candKey (es.foldl selectStep (e, false)).1)) :=
          List.countP_pos_iff.mpr ⟨_, hmem, by simp⟩
        have h2 : ¬ 2 ≤ (e :: es).countP
            (fun p => decide (candKey p = candKey (es.foldl selectStep (e, false)).1)) :=
          fun hc => hd (hdup.mpr (Or.inr hc))
        omega

theorem resolve_latest_selects_unique_max_witness :
    (∃ best, resolve .Latest ("v") [⟨("a"), ("v1.0.0"), 3, []⟩] = .ok best ∧
      best ∈ eligibleList ("v") [⟨("a"), ("v1.0.0"), 3, []⟩] ∧
      (∀ p ∈ eligibleList ("v") [⟨("a"), ("v1.0.0"), 3, []⟩],
        ¬ keyLt (candKey best) (candKey p)) ∧
      (eligibleList ("v") [⟨("a"), ("v1.0.0"), 3, []⟩]).countP
        (fun p => decide (candKey p = candKey best)) = 1) ∨
    (resolve .Latest ("v") [⟨("a"), ("v1.0.0"), 3, []⟩] = .error .AmbiguousMatch ∧
      ∃ best, best ∈ eligibleList ("v") [⟨("a"), ("v1.0.0"), 3, []⟩] ∧
        (∀ p ∈ eligibleList ("v") [⟨("a"), ("v1.0.0"), 3, []⟩],
          ¬ keyLt (candKey best) (candKey p)) ∧
        2 ≤ (eligibleList ("v") [⟨("a"), ("v1.0.0"), 3, []⟩]).countP
          (fun p => decide (candKey p = candKey best))) :=
  resolve_latest_selects_unique_max ("v") [⟨("a"), ("v1.0.0"), 3, []⟩] (by decide)

theorem eligibleList_filter_eligible (pre : String) (releases : List Release) :
    eligibleList pre (releases.filter fun rel =>
      ((stripPrefixStr pre rel.raw_tag).bind parseVersion).isSome) =
    eligibleList pre releases := by
  induction releases with
  | nil => rfl
  | cons r tl ih =>
    by_cases h : ((stripPrefixStr pre r.raw_tag).bind parseVersion).isSome = true
    · rw [List.filter_cons, if_pos h]
      show List.filterMap _ (r :: _) = _
      unfold eligibleList at ih ⊢
      rw [List.filterMap_cons, List.filterMap_cons]
      cases hfr : ((stripPrefixStr pre r.raw_tag).bind parseVersion).map
          (fun v => (r, v)) with
      | none => simpa [hfr] using ih
      | some q => simpa [hfr] using ih
    · rw [List.filter_cons, if_neg h]
      have hnone : (stripPrefixStr pre r.raw_tag).bind parseVersion = none :=
        Option.not_isSome_iff_eq_none.mp (by simpa using h)
      unfold eligibleList at ih ⊢
      rw [List.filterMap_cons_none]
      · exact ih
      · rw [hnone]; rfl

/-- C2: the resolver silently excludes a release whose raw tag does not start
with the prefix or whose remainder does not parse as a semantic version —
such a release never contributes an eligible candidate, and deleting all such
releases leaves the result unchanged (no error for the individual releases) —
and an empty eligible set fails with `NoMatchingRelease`. -/
theorem resolve_excludes_ineligible (req : DownloadVersion) (pre : String)
    (releases : List Release) :
    (∀ rel ∈ releases,
      (pre.data.isPrefixOf rel.raw_tag.data = false ∨
        parseVersion (String.mk (rel.raw_tag.data.drop pre.data.length)) = none) →
      ∀ v, (rel, v) ∉ eligibleList pre releases) ∧
    (resolve req pre releases = resolve req pre (releases.filter fun rel =>
      ((stripPrefixStr pre rel.raw_tag).bind parseVersion).isSome)) ∧
    (eligibleList pre releases = [] →
      resolve req pre releases = .error .NoMatchingRelease) := by
  refine ⟨?_, ?_, ?_⟩
  · intro rel hrel hbad v hmem
    have hnone : (stripPrefixStr pre rel.raw_tag).bind parseVersion = none := by
      unfold stripPrefixStr
      rcases hbad with h | h
      · rw [if_neg (by simp [h])]
        rfl
      · by_cases hp : pre.data.isPrefixOf rel.raw_tag.data
        · rw [if_pos hp]
          simpa using h
        · rw [if_neg hp]
          rfl
    unfold eligibleList at hmem
    rw [List.mem_filterMap] at hmem
    obtain ⟨a, ha, hfa⟩ := hmem
    rw [Option.map_eq_some'] at hfa
    obtain ⟨v', hv', hpair⟩ := hfa
    have ha' : a = rel := congrArg Prod.fst hpair
    rw [ha', hnone] at hv'
    exact Option.noConfusion hv'
  · unfold resolve
    rw [eligibleList_filter_eligible]
  · intro h
    unfold resolve
    rw [h]

theorem resolve_excludes_ineligible_witness :
    resolve .Latest ("v") [⟨("bad"), ("x"), 0, []⟩] = .error .NoMatchingRelease ∧
    (⟨("bad"), ("x"), 0, []⟩, (⟨1, 0, 0⟩ : Version)) ∉
      eligibleList ("v") [⟨("bad"), ("x"), 0, []⟩] :=
  ⟨(resolve_excludes_ineligible .Latest ("v") [⟨("bad"), ("x"), 0, []⟩]).2.2 (by decide),
    (resolve_excludes_ineligible .Latest ("v") [⟨("bad"), ("x"), 0, []⟩]).1
      ⟨("bad"), ("x"), 0, []⟩ (by decide) (by decide) ⟨1, 0, 0⟩⟩

/-- C3: if the executor fails or is interrupted in the Downloading or
Verifying state, the running executable is left byte-for-byte unchanged, and
at no point of any execution is the executable path left with neither the
old nor the new binary present (the swap is a single atomic rename). -/
theorem executor_early_failure_preserves_executable (old new_ : List Nat)
    (size : Nat) (interrupt : Option Phase) :
    (((runUpdate old new_ size interrupt).2 = some .DownloadError ∨
      (runUpdate old new_ size interrupt).2 = some .VerificationError) →
      ((runUpdate old new_ size interrupt).1.getLastD
        ⟨some old, none⟩).execBytes = some old) ∧
    (∀ d ∈ (runUpdate old new_ size interrupt).1,
      d.execBytes = some old ∨ d.execBytes = some new_) := by
  unfold runUpdate
  split_ifs with h1 h2 h3 h4
  · refine ⟨fun _ => rfl, fun d hd => ?_⟩
    simp only [List.mem_cons, List.not_mem_nil, or_false] at hd
    rcases hd with rfl | rfl <;> exact Or.inl rfl
  · refine ⟨fun _ => rfl, fun d hd => ?_⟩
    simp only [List.mem_cons, List.not_mem_nil, or_false] at hd
    rcases hd with rfl | rfl | rfl <;> exact Or.inl rfl
  · refine ⟨fun hf => ?_, fun d hd => ?_⟩
    · rcases hf with hf | hf <;> exact absurd hf (by simp)
    · simp only [List.mem_cons, List.not_mem_nil, or_false] at hd
      rcases hd with rfl | rfl | rfl <;> exact Or.inl rfl
  · refine ⟨fun hf => ?_, fun d hd => ?_⟩
    · rcases hf with hf | hf <;> exact absurd hf (by simp)
    · simp only [List.mem_cons, List.not_mem_nil, or_false] at hd
      rcases hd with rfl | rfl | rfl <;> exact Or.inl rfl
  · refine ⟨fun hf => ?_, fun d hd => ?_⟩
    · rcases hf with hf | hf <;> exact absurd hf (by simp)
    · simp only [List.mem_cons, List.not_mem_nil, or_false] at hd
      rcases hd with rfl | rfl | rfl
      · exact Or.inl rfl
      · exact Or.inl rfl
      · exact Or.inr rfl

theorem executor_early_failure_preserves_executable_witness :
    ((runUpdate [0] [1] 1 (some .Downloading)).1.getLastD
      ⟨some [0], none⟩).execBytes = some [0] :=
  (executor_early_failure_preserves_executable [0] [1] 1
    (some .Downloading)).1 (Or.inl rfl)
